import Mathlib

/-!
# ESP8266_AT_WebServer

A shallow embedding of three parts of the library and the properties proved about them:

* `utility/RingBuffer.cpp`: the circular look-ahead buffer (`push`, `endsWith`, `getStr`,
  `getStrN`, `reset`, `init`);
* `utility/RequestHandlersImpl.h`: `FunctionRequestHandler` (`canHandle`, `canUpload`,
  `handle`, `upload`);
* `ESP8266_AT_Client.cpp`: the socket client (`write`, `available`, `read`, `peek`, `stop`,
  `status`, `connected`).

Pointers into a memory block are offsets from its start. A pointer that may step before the
block (`b` in `endsWith`) is an `Int`. `unsigned int` arithmetic that can wrap is taken
modulo `2 ^ w`, with `w` the width of `unsigned int` on the target.
-/

namespace ESP8266AT

/-! ## C library -/

/-- A `char`. -/
abbrev Byte := UInt8

/-- The C function `strlen`. A C string is given by the bytes found at its pointer; the list is
followed by a terminator, so the string stops before the first NUL or at the end of the list. -/
def strlen (str : List Byte) : Nat :=
  (str.takeWhile fun c => c != 0).length

/-- Memory reachable from a `char *` destination, addressed by offset. -/
abbrev Mem := Nat → Byte

/-- One byte store `m[i] = v`. -/
def Mem.store (m : Mem) (i : Nat) (v : Byte) : Mem :=
  fun j => if j = i then v else m j

/-- The stores performed by `strncpy(dest, src, n)`, in order: exactly `n` of them, at offsets
`0 .. n-1`; the characters of `src` up to its terminator, then NUL padding. -/
def strncpyStores (src : List Byte) (n : Nat) : List (Nat × Byte) :=
  (List.range n).map fun i => (i, if i < strlen src then src.getD i 0 else 0)

/-- A sequence of byte stores `(offset, value)`, performed in order. -/
def Mem.storeAll (m : Mem) (stores : List (Nat × Byte)) : Mem :=
  stores.foldl (fun m st => m.store st.1 st.2) m

/-- The C function `strncpy(dest, src, n)`: the destination after its stores. -/
def strncpy (dest : Mem) (src : List Byte) (n : Nat) : Mem :=
  dest.storeAll (strncpyStores src n)

/-- The C function `memset(m, v, n)` on a block `m`. -/
def memset (m : List Byte) (v : Byte) (n : Nat) : List Byte :=
  List.replicate n v ++ m.drop n

/-- The C++ expression `new char[n]`: a block of `n` chars with the indeterminate contents
`fresh`. -/
def newChars (fresh : Mem) (n : Nat) : List Byte :=
  (List.range n).map fresh

/-! ## RingBuffer.cpp -/

/-- Class `RingBuffer`: `ringBuf` is the block allocated by the constructor (`_size + 1` chars
when that sum does not wrap in `unsigned int`), `ringBufEnd` and `ringBufP` are offsets into
it. -/
structure RingBuffer where
  _size : Nat
  ringBuf : List Byte
  ringBufEnd : Nat
  ringBufP : Nat
deriving DecidableEq, Repr

namespace RingBuffer

/-- Source: `void RingBuffer::reset()`. -/
def reset (rb : RingBuffer) : RingBuffer :=
  { rb with ringBufP := 0 }

/-- Source: `void RingBuffer::init()`; the length `_size+1` given to `memset` is computed in
`unsigned int`, of width `w`. -/
def init (w : Nat) (rb : RingBuffer) : RingBuffer :=
  { rb with ringBufP := 0, ringBuf := memset rb.ringBuf 0 ((rb._size + 1) % 2 ^ w) }

/-- Source: `RingBuffer::RingBuffer(unsigned int size)`; the length `size+1` of the block is
computed in `unsigned int`, of width `w`, and `fresh` is what the new block holds. -/
def construct (w size : Nat) (fresh : Mem) : RingBuffer :=
  init w
    { _size := size, ringBuf := newChars fresh ((size + 1) % 2 ^ w), ringBufEnd := size,
      ringBufP := 0 }

/-- Source: `void RingBuffer::push(char c)`. -/
def push (rb : RingBuffer) (c : Byte) : RingBuffer :=
  let ringBuf := rb.ringBuf.set rb.ringBufP c
  let ringBufP := rb.ringBufP + 1
  { rb with ringBuf := ringBuf, ringBufP := if ringBufP ≥ rb.ringBufEnd then 0 else ringBufP }

/-- Push the bytes of `s` in order. -/
def pushAll (rb : RingBuffer) (s : List Byte) : RingBuffer :=
  s.foldl push rb

/-- Read `*b` for a pointer at offset `b` from `ringBuf`; `none` outside the block. -/
def deref (rb : RingBuffer) (b : Int) : Option Byte :=
  if 0 ≤ b then rb.ringBuf[b.toNat]? else none

/-- The `for` loop of `RingBuffer::endsWith`, over the remaining characters of `str`. -/
def endsWithLoop (rb : RingBuffer) : List Byte → Int → Option Bool
  | [], _ => some true
  | c :: cs, b =>
    match rb.deref b with
    | none => none
    | some x =>
      if c != x then some false
      else
        let b := b + 1
        endsWithLoop rb cs (if b = (rb.ringBufEnd : Int) then 0 else b)

/-- Source: `bool RingBuffer::endsWith(const char* str)`; `none` when a read falls outside the
block. -/
def endsWith (rb : RingBuffer) (str : List Byte) : Option Bool :=
  let findStrLen := strlen str
  let b : Int := (rb.ringBufP : Int) - (findStrLen : Int)
  let b := if b < 0 then b + (rb._size : Int) else b
  endsWithLoop rb (str.take findStrLen) b

/-- The length computed by `getStr`: `unsigned int len = ringBufP-ringBuf-skipChars`. -/
def getStrLen (w : Nat) (rb : RingBuffer) (skipChars : Nat) : Nat :=
  (((rb.ringBufP : Int) - (skipChars : Int)) % (2 ^ w : Int)).toNat

/-- Source: `void RingBuffer::getStr(char * destination, unsigned int skipChars)`. -/
def getStr (w : Nat) (rb : RingBuffer) (destination : Mem) (skipChars : Nat) : Mem :=
  let len := getStrLen w rb skipChars
  strncpy destination rb.ringBuf len

/-- The length computed by `getStrN`, after `if (len>num) len=num;`. -/
def getStrNLen (w : Nat) (rb : RingBuffer) (skipChars num : Nat) : Nat :=
  let len := (((rb.ringBufP : Int) - (skipChars : Int)) % (2 ^ w : Int)).toNat
  if len > num then num else len

/-- Source: `void RingBuffer::getStrN(char * destination, unsigned int skipChars, unsigned int num)`. -/
def getStrN (w : Nat) (rb : RingBuffer) (destination : Mem) (skipChars num : Nat) : Mem :=
  let len := getStrNLen w rb skipChars num
  strncpy destination rb.ringBuf len

/-- States reached from a constructed buffer of capacity at least one whose `size+1` did not
wrap: the block has `_size + 1` chars, `ringBufEnd` is at offset `_size`, and the cursor is
inside the ring. -/
def WF (rb : RingBuffer) : Prop :=
  rb.ringBufEnd = rb._size ∧ rb.ringBuf.length = rb._size + 1 ∧ rb.ringBufP < rb._size

/-- The ring read in push order: the `_size` chars starting at the cursor, wrapping. -/
def window (rb : RingBuffer) : List Byte :=
  (rb.ringBuf.take rb._size).rotate rb.ringBufP

end RingBuffer

/-! ## Arduino `String` -/

/-- An Arduino `String` (WString.h), given by its characters. -/
abbrev WString := List Char

namespace WString

/-- Source: `String::endsWith(const String &suffix)`. -/
def endsWith (s suffix : WString) : Bool :=
  suffix.isSuffixOf s

/-- Source: `String::startsWith(const String &prefix)`. -/
def startsWith (s pre : WString) : Bool :=
  pre.isPrefixOf s

/-- The scan of `String::replace`: `skip` counts the characters of a found occurrence that
are still to be stepped over; the search resumes right after the occurrence. -/
def replaceScan (find repl : WString) : Nat → WString → WString
  | _, [] => []
  | skip + 1, _ :: cs => replaceScan find repl skip cs
  | 0, c :: cs =>
    if find.isPrefixOf (c :: cs) then repl ++ replaceScan find repl (find.length - 1) cs
    else c :: replaceScan find repl 0 cs

/-- Source: `String::replace(const String& find, const String& replace)`: every occurrence of `find`,
searched left to right, is replaced; nothing happens for an empty `find`. -/
def replace (s find repl : WString) : WString :=
  if s.length = 0 ∨ find.length = 0 then s else replaceScan find repl 0 s

end WString

/-! ## ESP8266_AT_WebServer.h, RequestHandlersImpl.h -/

/-- Source: `enum HTTPMethod`. -/
inductive HTTPMethod where
  | HTTP_ANY
  | HTTP_GET
  | HTTP_POST
  | HTTP_PUT
  | HTTP_PATCH
  | HTTP_DELETE
  | HTTP_OPTIONS
deriving DecidableEq, Repr

/-- Source: `ESP8266_AT_WebServer::THandlerFunction`, a `vl::Func<void(void)>`: empty (`none`) or bound
to a procedure acting on the program state `σ`. -/
abbrev THandlerFunction (σ : Type) := Option (σ → σ)

/-- Class `FunctionRequestHandler`. -/
structure FunctionRequestHandler (σ : Type) where
  _fn : THandlerFunction σ
  _ufn : THandlerFunction σ
  _uri : WString
  _method : HTTPMethod

namespace FunctionRequestHandler

variable {σ : Type}

/-- Source: `bool canHandle(HTTPMethod requestMethod, String requestUri)`. -/
def canHandle (h : FunctionRequestHandler σ) (requestMethod : HTTPMethod)
    (requestUri : WString) : Bool :=
  if h._method ≠ HTTPMethod.HTTP_ANY ∧ h._method ≠ requestMethod then false
  else if requestUri = h._uri then true
  else if WString.endsWith h._uri "/*".toList then
    let _uristart := WString.replace h._uri "/*".toList "".toList
    if WString.startsWith requestUri _uristart then true else false
  else false

/-- Source: `bool canUpload(String requestUri)`. -/
def canUpload (h : FunctionRequestHandler σ) (requestUri : WString) : Bool :=
  if h._ufn.isNone || !h.canHandle HTTPMethod.HTTP_POST requestUri then false
  else true

/-- The call `_ufn()`: runs the bound procedure. -/
def call (f : THandlerFunction σ) (world : σ) : σ :=
  match f with
  | some g => g world
  | none => world

/-- Source: `void upload(ESP8266_AT_WebServer& server, String requestUri, HTTPUpload& upload)`, as the
change it makes to the program state. -/
def upload (h : FunctionRequestHandler σ) (requestUri : WString) (world : σ) : σ :=
  if h.canUpload requestUri then call h._ufn world else world

/-- The call `_fn()` of a `vl::Func` that was not tested for emptiness: runs the bound
procedure; calling an empty `Func` is undefined (`none`). -/
def invoke (f : THandlerFunction σ) (world : σ) : Option σ :=
  match f with
  | some g => some (g world)
  | none => none

/-- Source: `bool handle(ESP8266_AT_WebServer& server, HTTPMethod requestMethod, String
requestUri)`: the value returned and the program state afterwards. -/
def handle (h : FunctionRequestHandler σ) (requestMethod : HTTPMethod) (requestUri : WString)
    (world : σ) : Option (Bool × σ) :=
  if !h.canHandle requestMethod requestUri then some (false, world)
  else
    match invoke h._fn world with
    | none => none
    | some world1 => some (true, world1)

end FunctionRequestHandler

/-! ## ESP8266_AT_Client.cpp -/

/-- Modelled from the spec: the connection states `CLOSED` and `ESTABLISHED` reported for a
socket (constants of `ESP8266_AT.h`, which is not among the sources). -/
inductive ConnState where
  | CLOSED
  | ESTABLISHED
deriving DecidableEq, Repr

/-- A call made to the modem driver (`ESP8266_AT_Drv`) or to the socket table
(`ESP8266_AT_Class::releaseSocket`), with its arguments. -/
inductive DrvCall where
  | sendData (sock : Nat) (buf : List Byte) (size : Nat)
  | availData (sock : Nat)
  | getData (sock : Nat) (peek : Bool)
  | getDataBuf (sock : Nat) (size : Nat)
  | stopClient (sock : Nat)
  | getClientState (sock : Nat)
  | releaseSocket (sock : Nat)
deriving DecidableEq, Repr

/-- The handle a driver call is made with. -/
def DrvCall.sock : DrvCall → Nat
  | DrvCall.sendData sock _ _ => sock
  | DrvCall.availData sock => sock
  | DrvCall.getData sock _ => sock
  | DrvCall.getDataBuf sock _ => sock
  | DrvCall.stopClient sock => sock
  | DrvCall.getClientState sock => sock
  | DrvCall.releaseSocket sock => sock

/-- Whether a driver call is `sendData`. -/
def DrvCall.isSendData : DrvCall → Bool
  | DrvCall.sendData _ _ _ => true
  | _ => false

/-- The driver's answers during one client operation (no operation calls a driver function
twice): the results of `sendData`, `availData`, `getDataBuf` and `getClientState`, and the byte
and the `connClose` flag left by `getData`. -/
structure DrvResp where
  sendData : Bool
  availData : Int
  data : Byte
  connClose : Bool
  getDataBuf : Int
  getClientState : Bool
deriving DecidableEq, Repr

/-- Class `ESP8266_AT_Client`: the socket handle `_sock` (`uint8_t`) and the flag
`write_error` inherited from `Print`. -/
structure ESP8266_AT_Client where
  _sock : Nat
  write_error : Int
deriving DecidableEq, Repr

/-- Outcome of a client operation: the client afterwards, the value returned and the driver
calls made, in order. -/
structure Out (α : Type) where
  client : ESP8266_AT_Client
  ret : α
  calls : List DrvCall

namespace ESP8266_AT_Client

/-- Source: `Print::setWriteError(int err = 1)`. -/
def setWriteError (c : ESP8266_AT_Client) : ESP8266_AT_Client :=
  { c with write_error := 1 }

/-- Source: `void ESP8266_AT_Client::stop()`. -/
def stop (c : ESP8266_AT_Client) : Out Unit :=
  if c._sock = 255 then ⟨c, (), []⟩
  else
    ⟨{ c with _sock := 255 }, (), [DrvCall.stopClient c._sock, DrvCall.releaseSocket c._sock]⟩

/-- Source: `size_t ESP8266_AT_Client::write(const uint8_t *buf, size_t size)`; `MAX_SOCK_NUM` is a
constant of `ESP8266_AT.h`. -/
def write (MAX_SOCK_NUM : Nat) (c : ESP8266_AT_Client) (buf : List Byte) (size : Nat)
    (d : DrvResp) : Out Nat :=
  if c._sock ≥ MAX_SOCK_NUM ∨ size = 0 then ⟨c.setWriteError, 0, []⟩
  else
    let r := d.sendData
    if !r then
      let o := c.setWriteError.stop
      ⟨o.client, 0, DrvCall.sendData c._sock buf size :: o.calls⟩
    else ⟨c, size, [DrvCall.sendData c._sock buf size]⟩

/-- Source: `int ESP8266_AT_Client::available()`. -/
def available (c : ESP8266_AT_Client) (d : DrvResp) : Out Int :=
  if c._sock ≠ 255 then
    let bytes := d.availData
    if bytes > 0 then ⟨c, bytes, [DrvCall.availData c._sock]⟩
    else ⟨c, 0, [DrvCall.availData c._sock]⟩
  else ⟨c, 0, []⟩

/-- Source: `int ESP8266_AT_Client::read()`. -/
def read (c : ESP8266_AT_Client) (d : DrvResp) : Out Int :=
  let a := c.available d
  if a.ret = 0 then ⟨c, -1, a.calls⟩
  else
    let calls := a.calls ++ [DrvCall.getData c._sock false]
    if d.connClose then
      ⟨{ c with _sock := 255 }, d.data.toNat, calls ++ [DrvCall.releaseSocket c._sock]⟩
    else ⟨c, d.data.toNat, calls⟩

/-- Source: `int ESP8266_AT_Client::read(uint8_t* buf, size_t size)`. -/
def readBuf (c : ESP8266_AT_Client) (size : Nat) (d : DrvResp) : Out Int :=
  let a := c.available d
  if a.ret = 0 then ⟨c, -1, a.calls⟩
  else ⟨c, d.getDataBuf, a.calls ++ [DrvCall.getDataBuf c._sock size]⟩

/-- Source: `int ESP8266_AT_Client::peek()`. -/
def peek (c : ESP8266_AT_Client) (d : DrvResp) : Out Int :=
  let a := c.available d
  if a.ret = 0 then ⟨c, -1, a.calls⟩
  else
    let calls := a.calls ++ [DrvCall.getData c._sock true]
    if d.connClose then
      ⟨{ c with _sock := 255 }, d.data.toNat, calls ++ [DrvCall.releaseSocket c._sock]⟩
    else ⟨c, d.data.toNat, calls⟩

/-- Source: `uint8_t ESP8266_AT_Client::status()`. -/
def status (c : ESP8266_AT_Client) (d : DrvResp) : Out ConnState :=
  if c._sock = 255 then ⟨c, ConnState.CLOSED, []⟩
  else if d.availData ≠ 0 then ⟨c, ConnState.ESTABLISHED, [DrvCall.availData c._sock]⟩
  else if d.getClientState then
    ⟨c, ConnState.ESTABLISHED, [DrvCall.availData c._sock, DrvCall.getClientState c._sock]⟩
  else
    ⟨{ c with _sock := 255 }, ConnState.CLOSED,
      [DrvCall.availData c._sock, DrvCall.getClientState c._sock,
        DrvCall.releaseSocket c._sock]⟩

/-- Source: `uint8_t ESP8266_AT_Client::connected()`. -/
def connected (c : ESP8266_AT_Client) (d : DrvResp) : Out Bool :=
  let o := c.status d
  ⟨o.client, decide (o.ret = ConnState.ESTABLISHED), o.calls⟩

end ESP8266_AT_Client

/-- A call of a client method by the program. -/
inductive ClientCall where
  | available
  | read
  | readBuf (size : Nat)
  | peek
  | status
  | connected
  | write (buf : List Byte) (size : Nat)
  | stop
deriving DecidableEq, Repr

/-- One client method called with the driver answering `d`: the client afterwards and the
driver calls made. -/
def step (MAX_SOCK_NUM : Nat) (c : ESP8266_AT_Client) (call : ClientCall) (d : DrvResp) :
    ESP8266_AT_Client × List DrvCall :=
  match call with
  | ClientCall.available => ((c.available d).client, (c.available d).calls)
  | ClientCall.read => ((c.read d).client, (c.read d).calls)
  | ClientCall.readBuf size => ((c.readBuf size d).client, (c.readBuf size d).calls)
  | ClientCall.peek => ((c.peek d).client, (c.peek d).calls)
  | ClientCall.status => ((c.status d).client, (c.status d).calls)
  | ClientCall.connected => ((c.connected d).client, (c.connected d).calls)
  | ClientCall.write buf size =>
    ((c.write MAX_SOCK_NUM buf size d).client, (c.write MAX_SOCK_NUM buf size d).calls)
  | ClientCall.stop => (c.stop.client, c.stop.calls)

/-- A finite sequence of client method calls, each with the driver's answers: the client at the
end and all driver calls made, in order. -/
def run (MAX_SOCK_NUM : Nat) (c : ESP8266_AT_Client) :
    List (ClientCall × DrvResp) → ESP8266_AT_Client × List DrvCall
  | [] => (c, [])
  | (call, d) :: rest =>
    ((run MAX_SOCK_NUM (step MAX_SOCK_NUM c call d).1 rest).1,
      (step MAX_SOCK_NUM c call d).2 ++ (run MAX_SOCK_NUM (step MAX_SOCK_NUM c call d).1 rest).2)

/-! ## Lists: rotation and stores -/

theorem rotate_set_succ {α : Type} (L : List α) (p : Nat) (c : α) (hp : p < L.length) :
    (L.set p c).rotate (p + 1) = (L.rotate p).drop 1 ++ [c] := by
  have h1 : p + 1 ≤ (L.set p c).length := by simpa using hp
  rw [List.rotate_eq_drop_append_take h1, List.drop_set_of_lt c L (Nat.lt_succ_self p),
    List.rotate_eq_drop_append_take (Nat.le_of_lt hp)]
  have h2 : List.take (p + 1) (L.set p c) = List.take p L ++ [c] := by
    rw [List.take_succ, List.getElem?_set_self (by simpa using hp)]
    congr 1
    apply List.ext_getElem?
    intro i
    simp only [List.getElem?_take, List.getElem?_set]
    split_ifs with h3 h4 <;> first | rfl | omega
  rw [h2, List.drop_append_of_le_length (by simp; omega), List.drop_drop, List.append_assoc]

theorem prefix_rotate_succ {α : Type} (L cs : List α) (b : Nat) (hb : b < L.length)
    (hcs : cs.length + 1 ≤ L.length) :
    cs <+: L.rotate (b + 1) ↔ L[b] :: cs <+: L.rotate b := by
  rw [List.rotate_eq_drop_append_take (Nat.le_of_lt hb), List.rotate_eq_drop_append_take hb,
    List.drop_eq_getElem_cons hb, List.cons_append, List.prefix_cons_inj, List.take_succ,
    List.getElem?_eq_getElem hb, Option.toList_some, ← List.append_assoc]
  constructor
  · intro h
    refine List.prefix_of_prefix_length_le h (List.prefix_append _ _) ?_
    simp
    omega
  · intro h
    exact h.trans (List.prefix_append _ _)

theorem take_set_comm {α : Type} (L : List α) (n p : Nat) (c : α) :
    (L.set p c).take n = (L.take n).set p c := by
  apply List.ext_getElem?
  intro i
  simp only [List.getElem?_take, List.getElem?_set, List.length_take]
  by_cases h1 : i < n <;> by_cases h2 : p = i <;> by_cases h3 : p < L.length <;>
    simp [h1, h2, h3]

theorem prefix_rotate_iff_suffix {α : Type} (H P : List α) (h : P.length ≤ H.length) :
    P <+: H.rotate (H.length - P.length) ↔ P <:+ H := by
  rw [List.rotate_eq_drop_append_take (Nat.sub_le _ _), List.suffix_iff_eq_drop,
    List.prefix_iff_eq_take, List.take_append_of_le_length (by simp; omega)]
  have h1 : (List.drop (H.length - P.length) H).length = P.length := by simp; omega
  rw [List.take_of_length_le (Nat.le_of_eq h1)]

theorem suffix_drop_iff {α : Type} (H P s : List α) (h : P.length ≤ H.length) :
    P <:+ (H ++ s).drop s.length ↔ P <:+ H ++ s := by
  constructor
  · intro h1
    exact h1.trans (List.drop_suffix _ _)
  · intro h1
    refine List.suffix_of_suffix_length_le h1 (List.drop_suffix _ _) ?_
    simp
    omega

theorem suffix_zeros_append_iff (N : Nat) (P s : List UInt8) (hP : ∀ c ∈ P, c ≠ 0) :
    P <:+ List.replicate N 0 ++ s ↔ P <:+ s := by
  constructor
  · intro h
    rcases List.suffix_or_suffix_of_suffix h (List.suffix_append _ s) with h1 | ⟨t, ht⟩
    · exact h1
    · obtain ⟨u, hu⟩ := h
      rw [← ht, ← List.append_assoc] at hu
      have hz := List.append_cancel_right hu
      cases t with
      | nil => exact ⟨[], ht.symm⟩
      | cons x t =>
        exfalso
        have hx : x ∈ List.replicate N (0 : UInt8) := by
          rw [← hz]
          simp
        have hx0 : x = 0 := (List.mem_replicate.1 hx).2
        exact hP x (by rw [← ht]; simp) hx0
  · intro h
    exact h.trans (List.suffix_append _ _)

theorem strlen_of_nonzero (P : List UInt8) (hP : ∀ c ∈ P, c ≠ 0) :
    (P.takeWhile fun c => c != 0) = P := by
  rw [List.takeWhile_eq_self_iff]
  intro x hx
  simpa using hP x hx

theorem strncpy_succ (dest : Mem) (src : List UInt8) (n : Nat) :
    strncpy dest src (n + 1)
      = (strncpy dest src n).store n (if n < strlen src then src.getD n 0 else 0) := by
  simp [strncpy, strncpyStores, Mem.storeAll, List.range_succ, List.foldl_append]

/-- Pointwise description of `strncpy`: offsets below `n` receive the string then NULs, the
others keep their value. -/
theorem strncpy_apply (dest : Mem) (src : List UInt8) (n i : Nat) :
    strncpy dest src n i
      = if i < n then (if i < strlen src then src.getD i 0 else 0) else dest i := by
  induction n with
  | zero => simp [strncpy, strncpyStores, Mem.storeAll]
  | succ n ih =>
    rw [strncpy_succ, Mem.store]
    by_cases h1 : i = n
    · subst h1
      simp
    · have h2 : i < n + 1 ↔ i < n := by omega
      rw [if_neg h1, ih]
      simp only [h2]

theorem strncpyStores_offsets (src : List UInt8) (n : Nat) :
    (strncpyStores src n).map Prod.fst = List.range n := by
  simp [strncpyStores, Function.comp_def]

theorem strlen_append_lt (s t : List UInt8) (i : Nat) (hi : i < s.length) :
    i < strlen (s ++ t) ↔ i < strlen s := by
  induction s generalizing i with
  | nil => simp at hi
  | cons c s ih =>
    by_cases hc : c = 0
    · simp [strlen, List.takeWhile_cons, hc]
    · have hc1 : (c != 0) = true := by simpa using hc
      cases i with
      | zero => simp [strlen, List.takeWhile_cons, hc1]
      | succ i =>
        have := ih i (by simpa using hi)
        simp only [strlen] at this
        simp [strlen, List.takeWhile_cons, hc1, this]

theorem lt_strlen_of_nonzero (s : List UInt8) (i : Nat) (hi : i < s.length)
    (hnz : ∀ j, j ≤ i → s.getD j 0 ≠ 0) : i < strlen s := by
  induction s generalizing i with
  | nil => simp at hi
  | cons c s ih =>
    have hc : c ≠ 0 := by simpa using hnz 0 (Nat.zero_le _)
    have hc1 : (c != 0) = true := by simpa using hc
    cases i with
    | zero => simp [strlen, List.takeWhile_cons, hc1]
    | succ i =>
      have := ih i (by simpa using hi) (fun j hj => by simpa using hnz (j + 1) (by omega))
      simp only [strlen] at this
      simp [strlen, List.takeWhile_cons, hc1, this]

/-! ## RingBuffer: invariant and window -/

namespace RingBuffer

theorem WF.push {rb : RingBuffer} (h : rb.WF) (c : Byte) : (rb.push c).WF := by
  obtain ⟨h1, h2, h3⟩ := h
  refine ⟨h1, ?_, ?_⟩
  · simpa [RingBuffer.push] using h2
  · simp only [RingBuffer.push]
    split_ifs <;> omega

theorem WF.pushAll {rb : RingBuffer} (h : rb.WF) (s : List Byte) : (rb.pushAll s).WF := by
  induction s generalizing rb with
  | nil => exact h
  | cons c s ih => exact ih (h.push c)

theorem WF.reset {rb : RingBuffer} (h : rb.WF) : rb.reset.WF := by
  obtain ⟨h1, h2, h3⟩ := h
  exact ⟨h1, h2, by simp only [RingBuffer.reset]; omega⟩

theorem construct_WF (w size : Nat) (fresh : Mem) (hN : 1 ≤ size)
    (hw : size + 1 < 2 ^ w) : (construct w size fresh).WF := by
  refine ⟨rfl, ?_, ?_⟩
  · simp [construct, init, memset, newChars, Nat.mod_eq_of_lt hw]
  · simpa [construct, init] using hN

theorem pushAll_size (rb : RingBuffer) (s : List Byte) : (rb.pushAll s)._size = rb._size := by
  induction s generalizing rb with
  | nil => rfl
  | cons c s ih => exact ih (rb.push c)

theorem window_length {rb : RingBuffer} (h : rb.WF) : rb.window.length = rb._size := by
  obtain ⟨_, h2, _⟩ := h
  simp [window, h2]

theorem window_push {rb : RingBuffer} (h : rb.WF) (c : Byte) :
    (rb.push c).window = rb.window.drop 1 ++ [c] := by
  obtain ⟨h1, h2, h3⟩ := h
  have hL : (rb.ringBuf.take rb._size).length = rb._size := by simp [h2]
  have key := rotate_set_succ (rb.ringBuf.take rb._size) rb.ringBufP c (by omega)
  simp only [window, RingBuffer.push, take_set_comm]
  rw [← key]
  split_ifs with h4
  · have h5 : rb.ringBufP + 1 = ((rb.ringBuf.take rb._size).set rb.ringBufP c).length := by
      simp only [List.length_set, hL]
      omega
    rw [h5, List.rotate_length, List.rotate_zero]
  · rfl

theorem window_pushAll {rb : RingBuffer} (h : rb.WF) (s : List Byte) :
    (rb.pushAll s).window = (rb.window ++ s).drop s.length := by
  induction s generalizing rb with
  | nil => simp [pushAll]
  | cons c s ih =>
    have hlen := window_length h
    have hpos : 0 < rb._size := Nat.lt_of_le_of_lt (Nat.zero_le _) h.2.2
    show ((rb.push c).pushAll s).window = _
    have h1 : List.drop 1 (rb.window ++ c :: s) = List.drop 1 rb.window ++ [c] ++ s := by
      rw [List.drop_append_of_le_length (by omega), List.append_assoc]
      rfl
    rw [ih (h.push c), window_push h c, List.length_cons, Nat.add_comm, ← List.drop_drop, h1]

theorem endsWithLoop_eq {rb : RingBuffer} (h : rb.WF) (cs : List Byte) (b : Nat)
    (hb : b < rb._size) (hcs : cs.length ≤ rb._size) :
    rb.endsWithLoop cs (b : Int)
      = some (decide (cs <+: (rb.ringBuf.take rb._size).rotate b)) := by
  obtain ⟨h1, h2, h3⟩ := h
  have hL : (rb.ringBuf.take rb._size).length = rb._size := by simp [h2]
  induction cs generalizing b with
  | nil => simp [endsWithLoop]
  | cons c cs ih =>
    have hbL : b < (rb.ringBuf.take rb._size).length := by omega
    have hd : rb.deref (b : Int) = some (rb.ringBuf.take rb._size)[b] := by
      simp only [deref, Int.toNat_ofNat, Int.ofNat_nonneg, if_true]
      rw [List.getElem_take, List.getElem?_eq_getElem]
    have hrot : (rb.ringBuf.take rb._size).rotate b
        = (rb.ringBuf.take rb._size)[b]
          :: (List.drop (b + 1) (rb.ringBuf.take rb._size) ++ List.take b (rb.ringBuf.take rb._size)) := by
      rw [List.rotate_eq_drop_append_take (Nat.le_of_lt hbL), List.drop_eq_getElem_cons hbL,
        List.cons_append]
    simp only [List.length_cons] at hcs
    simp only [endsWithLoop, hd]
    by_cases hc : c = (rb.ringBuf.take rb._size)[b]
    · have hstep := prefix_rotate_succ (rb.ringBuf.take rb._size) cs b hbL (by omega)
      rw [← hc] at hstep
      simp only [hc, bne_self_eq_false, Bool.false_eq_true, if_false]
      rw [← hc]
      by_cases hw : b + 1 = rb._size
      · have hw2 : ((b : Int) + 1 = (rb.ringBufEnd : Int)) := by rw [h1]; exact_mod_cast hw
        rw [if_pos hw2]
        have := ih 0 (by omega) (by omega)
        simp only [Nat.cast_zero] at this
        rw [this]
        congr 1
        have hfull := List.rotate_length (rb.ringBuf.take rb._size)
        rw [hL] at hfull
        rw [decide_eq_decide, ← hstep, hw, hfull, List.rotate_zero]
      · have hw2 : ¬ ((b : Int) + 1 = (rb.ringBufEnd : Int)) := by rw [h1]; exact_mod_cast hw
        rw [if_neg hw2]
        have := ih (b + 1) (by omega) (by omega)
        simp only [Nat.cast_add, Nat.cast_one] at this
        rw [this]
        congr 1
        rw [decide_eq_decide, ← hstep]
    · have hne : (c != (rb.ringBuf.take rb._size)[b]) = true := by simpa using hc
      rw [if_pos hne, hrot]
      congr 1
      symm
      rw [decide_eq_false_iff_not, List.cons_prefix_cons]
      exact fun h => hc h.1

/-- On a well-formed buffer `endsWith` compares the C string with the tail of the window. -/
theorem endsWith_eq {rb : RingBuffer} (h : rb.WF) (str : List Byte)
    (hlen : strlen str ≤ rb._size) :
    rb.endsWith str = some (decide (str.take (strlen str) <:+ rb.window)) := by
  have hwf := h
  obtain ⟨h1, h2, h3⟩ := h
  have hL : (rb.ringBuf.take rb._size).length = rb._size := by simp [h2]
  have hPl : (str.take (strlen str)).length = strlen str := by
    simp only [strlen, List.length_take]
    exact Nat.min_eq_left (List.takeWhile_sublist _).length_le
  have hsuf := prefix_rotate_iff_suffix rb.window (str.take (strlen str))
    (by rw [window_length hwf, hPl]; exact hlen)
  rw [window_length hwf, hPl] at hsuf
  simp only [window, List.rotate_rotate] at hsuf
  simp only [endsWith]
  by_cases hneg : rb.ringBufP < strlen str
  · have hb : ((rb.ringBufP : Int) - (strlen str : Int) < 0) := by omega
    rw [if_pos hb]
    have hcast : (rb.ringBufP : Int) - (strlen str : Int) + (rb._size : Int)
        = ((rb.ringBufP + (rb._size - strlen str) : Nat) : Int) := by omega
    rw [hcast, endsWithLoop_eq hwf _ _ (by omega) (by rw [hPl]; exact hlen)]
    congr 1
    rw [decide_eq_decide]
    exact hsuf
  · have hb : ¬ ((rb.ringBufP : Int) - (strlen str : Int) < 0) := by omega
    rw [if_neg hb]
    have hcast : (rb.ringBufP : Int) - (strlen str : Int)
        = ((rb.ringBufP - strlen str : Nat) : Int) := by omega
    rw [hcast, endsWithLoop_eq hwf _ _ (by omega) (by rw [hPl]; exact hlen)]
    congr 1
    rw [decide_eq_decide]
    show _ ↔ _ <:+ (rb.ringBuf.take rb._size).rotate rb.ringBufP
    rw [← hsuf]
    have hrot : (rb.ringBuf.take rb._size).rotate (rb.ringBufP + (rb._size - strlen str))
        = (rb.ringBuf.take rb._size).rotate (rb.ringBufP - strlen str) := by
      rw [← List.rotate_mod, hL]
      have : rb.ringBufP + (rb._size - strlen str) = (rb.ringBufP - strlen str) + rb._size := by
        omega
      rw [this, Nat.add_mod_right, Nat.mod_eq_of_lt (by omega)]
    rw [hrot]

/-- After pushing `s`, `endsWith` tests the C string against the old window followed by `s`. -/
theorem endsWith_pushAll {rb : RingBuffer} (h : rb.WF) (s str : List Byte)
    (hlen : strlen str ≤ rb._size) :
    (rb.pushAll s).endsWith str
      = some (decide (str.take (strlen str) <:+ rb.window ++ s)) := by
  have hsz : (rb.pushAll s)._size = rb._size := pushAll_size rb s
  have hPl : (str.take (strlen str)).length ≤ rb._size := by
    simp only [List.length_take]
    omega
  rw [endsWith_eq (h.pushAll s) str (by rw [hsz]; exact hlen), window_pushAll h]
  congr 1
  rw [decide_eq_decide]
  exact suffix_drop_iff _ _ _ (by rw [window_length h]; exact hPl)

theorem take_succ_set {α : Type} (L : List α) (p : Nat) (c : α) (hp : p < L.length) :
    List.take (p + 1) (L.set p c) = List.take p L ++ [c] := by
  rw [List.take_succ, List.getElem?_set_self (by simpa using hp)]
  congr 1
  apply List.ext_getElem?
  intro i
  simp only [List.getElem?_take, List.getElem?_set]
  split_ifs with h3 h4 <;> first | rfl | omega

/-- Pushing `s` without reaching the end of the ring: the cursor advances by `len(s)` and the
bytes of `s` lie at the offsets it passed. -/
theorem pushAll_no_wrap (rb : RingBuffer) (s : List Byte)
    (hend : rb.ringBufEnd = rb._size) (hfit : rb.ringBufP + s.length < rb._size)
    (hblock : rb._size ≤ rb.ringBuf.length) :
    (rb.pushAll s).ringBufP = rb.ringBufP + s.length
    ∧ (rb.pushAll s).ringBuf
        = rb.ringBuf.take rb.ringBufP ++ s ++ rb.ringBuf.drop (rb.ringBufP + s.length) := by
  induction s generalizing rb with
  | nil => simp [pushAll]
  | cons c s ih =>
    simp only [List.length_cons] at hfit
    have hnw : ¬ (rb.ringBufP + 1 ≥ rb.ringBufEnd) := by omega
    have hP1 : (rb.push c).ringBufP = rb.ringBufP + 1 := by
      simp only [push, if_neg hnw]
    have hB1 : (rb.push c).ringBuf = rb.ringBuf.set rb.ringBufP c := rfl
    have hS1 : (rb.push c)._size = rb._size := rfl
    have hE1 : (rb.push c).ringBufEnd = rb.ringBufEnd := rfl
    obtain ⟨ih1, ih2⟩ := ih (rb.push c) (by rw [hE1, hS1]; exact hend)
      (by rw [hP1, hS1]; omega) (by rw [hS1, hB1, List.length_set]; exact hblock)
    show ((rb.push c).pushAll s).ringBufP = _ ∧ ((rb.push c).pushAll s).ringBuf = _
    refine ⟨by rw [ih1, hP1, List.length_cons]; omega, ?_⟩
    rw [ih2, hP1, hB1, take_succ_set _ _ _ (by omega),
      List.drop_set_of_lt c rb.ringBuf (by omega), List.length_cons]
    have : rb.ringBufP + 1 + s.length = rb.ringBufP + (s.length + 1) := by omega
    rw [this]
    simp

theorem pushAll_ringBufEnd (rb : RingBuffer) (s : List Byte) :
    (rb.pushAll s).ringBufEnd = rb.ringBufEnd := by
  induction s generalizing rb with
  | nil => rfl
  | cons c s ih => exact ih (rb.push c)

theorem pushAll_length (rb : RingBuffer) (s : List Byte) :
    (rb.pushAll s).ringBuf.length = rb.ringBuf.length := by
  induction s generalizing rb with
  | nil => rfl
  | cons c s ih =>
    show ((rb.push c).pushAll s).ringBuf.length = _
    rw [ih (rb.push c)]
    simp [push]

/-- Two buffers with the same geometry and cursor, after the same pushes: the cursors agree,
and at every offset the blocks either agree or were both left as they were. -/
theorem pushAll_agree (rb1 rb2 : RingBuffer) (s : List Byte)
    (hend : rb1.ringBufEnd = rb2.ringBufEnd) (hp : rb1.ringBufP = rb2.ringBufP)
    (hlen : rb1.ringBuf.length = rb2.ringBuf.length) :
    (rb1.pushAll s).ringBufP = (rb2.pushAll s).ringBufP
    ∧ ∀ j : Nat, (rb1.pushAll s).ringBuf[j]? = (rb2.pushAll s).ringBuf[j]?
        ∨ ((rb1.pushAll s).ringBuf[j]? = rb1.ringBuf[j]?
            ∧ (rb2.pushAll s).ringBuf[j]? = rb2.ringBuf[j]?) := by
  induction s generalizing rb1 rb2 with
  | nil => exact ⟨hp, fun j => Or.inr ⟨rfl, rfl⟩⟩
  | cons c s ih =>
    have hp1 : (rb1.push c).ringBufP = (rb2.push c).ringBufP := by
      simp only [push, hp, hend]
    obtain ⟨ih1, ih2⟩ := ih (rb1.push c) (rb2.push c) hend hp1
      (by simp only [push, List.length_set]; exact hlen)
    refine ⟨ih1, fun j => ?_⟩
    show ((rb1.push c).pushAll s).ringBuf[j]? = ((rb2.push c).pushAll s).ringBuf[j]? ∨
      (((rb1.push c).pushAll s).ringBuf[j]? = rb1.ringBuf[j]? ∧
        ((rb2.push c).pushAll s).ringBuf[j]? = rb2.ringBuf[j]?)
    rcases ih2 j with h | ⟨h1, h2⟩
    · exact Or.inl h
    · have e1 : (rb1.push c).ringBuf[j]? = (rb1.ringBuf.set rb1.ringBufP c)[j]? := rfl
      have e2 : (rb2.push c).ringBuf[j]? = (rb2.ringBuf.set rb1.ringBufP c)[j]? := by
        rw [hp]
        rfl
      rw [e1] at h1
      rw [e2] at h2
      rw [h1, h2]
      simp only [List.getElem?_set, hlen]
      by_cases hj : rb1.ringBufP = j
      · left
        simp [hj]
      · right
        simp [hj]

/-- Replaying the same pushes from the start of the ring leaves the buffer as it was. -/
theorem pushAll_replay (rb : RingBuffer) (s : List Byte) (hp : rb.ringBufP = 0) :
    (rb.pushAll s).reset.pushAll s = rb.pushAll s := by
  obtain ⟨h1, h2⟩ := pushAll_agree rb (rb.pushAll s).reset s
    (by simp only [reset, pushAll_ringBufEnd]) (by rw [hp]; rfl)
    (by simp only [reset, pushAll_length])
  have hbuf : ((rb.pushAll s).reset.pushAll s).ringBuf = (rb.pushAll s).ringBuf := by
    apply List.ext_getElem?
    intro j
    rcases h2 j with h | ⟨_, h⟩
    · exact h.symm
    · exact h
  have hsz : ((rb.pushAll s).reset.pushAll s)._size = (rb.pushAll s)._size := by
    rw [pushAll_size]
    rfl
  have hE : ((rb.pushAll s).reset.pushAll s).ringBufEnd = (rb.pushAll s).ringBufEnd := by
    rw [pushAll_ringBufEnd]
    rfl
  cases hA : (rb.pushAll s).reset.pushAll s with
  | mk a1 a2 a3 a4 =>
    cases hB : rb.pushAll s with
    | mk b1 b2 b3 b4 =>
      rw [hA, hB] at hbuf hsz hE
      rw [hA, hB] at h1
      simp only at hbuf hsz hE h1
      rw [hbuf, hsz, hE, h1]

theorem getStrLen_eq (w : Nat) (rb : RingBuffer) (skipChars : Nat)
    (hskip : skipChars ≤ rb.ringBufP) (hw : rb.ringBufP < 2 ^ w) :
    rb.getStrLen w skipChars = rb.ringBufP - skipChars := by
  have h2 : ((2 : Int) ^ w) = ((2 ^ w : Nat) : Int) := by push_cast; rfl
  simp only [getStrLen]
  rw [h2, Int.emod_eq_of_lt (by omega) (by omega)]
  omega

theorem window_construct (w size : Nat) (fresh : Mem) (hw : size + 1 < 2 ^ w) :
    (construct w size fresh).window = List.replicate size 0 := by
  have h1 : (newChars fresh (size + 1)).drop (size + 1) = [] :=
    List.drop_eq_nil_of_le (by simp [newChars])
  simp [window, construct, init, memset, Nat.mod_eq_of_lt hw, h1, List.take_replicate]

end RingBuffer

/-! ## Claims -/

/-- C1 (amended): on a freshly constructed `RingBuffer(N)` with `N ≥ 1` and `N + 1` not
wrapping in `unsigned int` (`N + 1 < 2 ^ w`), after pushing the bytes of `s` in order,
`endsWith(P)` for a pattern `P` of non-NUL bytes with `len(P) ≤ N` returns true exactly when
`P` is a suffix of `s`, and false otherwise, however often the cursor wrapped. -/
theorem C1_endsWith_iff_suffix (w N : Nat) (fresh : Mem) (P s : List Byte) (hN : 1 ≤ N)
    (hw : N + 1 < 2 ^ w) (hP : ∀ c ∈ P, c ≠ 0) (hlen : P.length ≤ N) :
    ((RingBuffer.construct w N fresh).pushAll s).endsWith P = some (decide (P <:+ s)) := by
  have hstr : strlen P = P.length := by
    simp only [strlen, strlen_of_nonzero P hP]
  have hwf := RingBuffer.construct_WF w N fresh hN hw
  have hsz : (RingBuffer.construct w N fresh)._size = N := rfl
  rw [RingBuffer.endsWith_pushAll hwf s P (by rw [hsz, hstr]; exact hlen), hstr,
    List.take_length, RingBuffer.window_construct w N fresh hw]
  congr 1
  rw [decide_eq_decide]
  exact suffix_zeros_append_iff N P s hP

/-- Witness for C1: 16-bit `unsigned int`, capacity 3, pattern `"CD"`, after pushing `"ABCD"`
(one wrap). -/
theorem C1_endsWith_iff_suffix_witness :
    (1 ≤ 3 ∧ 3 + 1 < 2 ^ 16 ∧ ([67, 68] : List Byte).length ≤ 3)
    ∧ ((RingBuffer.construct 16 3 (Function.const Nat 9)).pushAll [65, 66, 67, 68]).endsWith
        [67, 68] = some true :=
  ⟨⟨by decide, by decide, by decide⟩,
    C1_endsWith_iff_suffix 16 3 (Function.const Nat 9) [67, 68] [65, 66, 67, 68] (by decide)
      (by decide) (by decide) (by decide)⟩

/-- C1 as stated fails at the largest capacity: with 16-bit `unsigned int` and `N = 65535`,
`size+1` wraps to 0, the block is empty, and after pushing `"A"` the read of `endsWith("A")`
falls outside the block, so it does not return true although `"A"` is a suffix of what was
pushed. -/
theorem C1_counterexample :
    1 ≤ 65535 ∧ ([65] : List Byte).length ≤ 65535 ∧ (65 : Byte) ≠ 0
    ∧ (RingBuffer.construct 16 65535 (Function.const Nat 9)).ringBuf = []
    ∧ ((RingBuffer.construct 16 65535 (Function.const Nat 9)).pushAll [65]).endsWith [65] = none
    ∧ ([65] : List Byte) <:+ [65] := by
  refine ⟨by decide, by decide, by decide, by decide, by decide, by decide⟩

/-! ### Request handlers -/

theorem replaceScan_single (Q : WString)
    (hfree : ∀ i, i < Q.length → ¬ "/*".toList <+: (Q ++ "/*".toList).drop i) :
    WString.replaceScan "/*".toList [] 0 (Q ++ "/*".toList) = Q := by
  induction Q with
  | nil => rfl
  | cons c Q ih =>
    have h0 : ¬ "/*".toList <+: c :: (Q ++ "/*".toList) := hfree 0 (by simp)
    have h1 : ("/*".toList).isPrefixOf (c :: (Q ++ "/*".toList)) = false := by
      rw [Bool.eq_false_iff]
      intro hp
      exact h0 (List.isPrefixOf_iff_prefix.1 hp)
    have ih1 := ih (fun i hi => hfree (i + 1) (by simpa using hi))
    show WString.replaceScan "/*".toList [] 0 (c :: (Q ++ "/*".toList)) = c :: Q
    rw [WString.replaceScan, if_neg (by rw [h1]; simp), ih1]

/-- For a pattern `Q ++ "/*"` in which `"/*"` occurs only at the end, and a method the handler
accepts, `canHandle` is the prefix test against `Q`. -/
theorem canHandle_single_wildcard {σ : Type} (h : FunctionRequestHandler σ) (Q : WString)
    (huri : h._uri = Q ++ "/*".toList)
    (hfree : ∀ i, i < Q.length → ¬ "/*".toList <+: (Q ++ "/*".toList).drop i)
    (requestMethod : HTTPMethod) (requestUri : WString)
    (hm : h._method = HTTPMethod.HTTP_ANY ∨ h._method = requestMethod) :
    h.canHandle requestMethod requestUri = true ↔ Q <+: requestUri := by
  have hguard : ¬ (h._method ≠ HTTPMethod.HTTP_ANY ∧ h._method ≠ requestMethod) := by
    rcases hm with hm | hm <;> simp [hm]
  have hends : WString.endsWith h._uri "/*".toList = true := by
    rw [huri, WString.endsWith, List.isSuffixOf_iff_suffix]
    exact List.suffix_append _ _
  have hrep : WString.replace h._uri "/*".toList "".toList = Q := by
    rw [huri, WString.replace, if_neg (by simp)]
    exact replaceScan_single Q hfree
  simp only [FunctionRequestHandler.canHandle, if_neg hguard, hends, hrep, if_true,
    WString.startsWith]
  by_cases heq : requestUri = h._uri
  · rw [if_pos heq, heq, huri]
    simp
  · rw [if_neg heq]
    by_cases hp : List.isPrefixOf Q requestUri = true
    · rw [if_pos hp]
      simpa using List.isPrefixOf_iff_prefix.1 hp
    · rw [if_neg hp]
      simp only [Bool.false_eq_true, false_iff]
      intro hq
      exact hp (List.isPrefixOf_iff_prefix.2 hq)

/-- C2 (defect in `canHandle`): `replace("/*","")` removes every `"/*"` of the pattern, not only
the trailing one. The handler for `"/a/*/b/*"` (method `HTTP_ANY`) accepts `"/a/b/x"`, which does
not start with `"/a/*/b"`, and rejects `"/a/*/b/x"`, which does. -/
theorem C2_canHandle_interior_wildcard :
    WString.endsWith "/a/*/b/*".toList "/*".toList = true
    ∧ "/a/*/b/*".toList = "/a/*/b".toList ++ "/*".toList
    ∧ FunctionRequestHandler.canHandle (σ := Unit)
        ⟨none, none, "/a/*/b/*".toList, HTTPMethod.HTTP_ANY⟩ HTTPMethod.HTTP_GET
        "/a/b/x".toList = true
    ∧ ¬ "/a/*/b".toList <+: "/a/b/x".toList
    ∧ FunctionRequestHandler.canHandle (σ := Unit)
        ⟨none, none, "/a/*/b/*".toList, HTTPMethod.HTTP_ANY⟩ HTTPMethod.HTTP_GET
        "/a/*/b/x".toList = false
    ∧ "/a/*/b".toList <+: "/a/*/b/x".toList := by
  refine ⟨by decide, by decide, by decide, by decide, by decide, by decide⟩

/-- C3: for a pattern that does not end in `"/*"`, `canHandle(method, uri)` is true exactly
when the handler's method is `HTTP_ANY` or the request method, and `uri` equals the pattern; and
a handler for a specific method never matches a request with another method. -/
theorem C3_canHandle_exact {σ : Type} (h : FunctionRequestHandler σ)
    (hexact : WString.endsWith h._uri "/*".toList = false)
    (requestMethod : HTTPMethod) (requestUri : WString) :
    (h.canHandle requestMethod requestUri = true ↔
      (h._method = HTTPMethod.HTTP_ANY ∨ h._method = requestMethod) ∧ requestUri = h._uri)
    ∧ (h._method ≠ HTTPMethod.HTTP_ANY → h._method ≠ requestMethod →
        h.canHandle requestMethod requestUri = false) := by
  constructor
  · simp only [FunctionRequestHandler.canHandle, hexact]
    by_cases hg : h._method ≠ HTTPMethod.HTTP_ANY ∧ h._method ≠ requestMethod
    · rw [if_pos hg]
      simp only [Bool.false_eq_true, false_iff]
      rintro ⟨h1 | h1, _⟩
      · exact hg.1 h1
      · exact hg.2 h1
    · rw [if_neg hg]
      have hm : h._method = HTTPMethod.HTTP_ANY ∨ h._method = requestMethod := by
        by_cases h1 : h._method = HTTPMethod.HTTP_ANY
        · exact Or.inl h1
        · by_cases h2 : h._method = requestMethod
          · exact Or.inr h2
          · exact absurd ⟨h1, h2⟩ hg
      by_cases heq : requestUri = h._uri
      · simp [heq, hm]
      · simp [heq]
  · intro h1 h2
    simp only [FunctionRequestHandler.canHandle]
    rw [if_pos ⟨h1, h2⟩]

/-- Witness for C3: the handler for `GET "/index"` against `GET "/index"` and `POST "/index"`. -/
theorem C3_canHandle_exact_witness :
    WString.endsWith "/index".toList "/*".toList = false
    ∧ FunctionRequestHandler.canHandle (σ := Unit)
        ⟨none, none, "/index".toList, HTTPMethod.HTTP_GET⟩ HTTPMethod.HTTP_GET
        "/index".toList = true
    ∧ FunctionRequestHandler.canHandle (σ := Unit)
        ⟨none, none, "/index".toList, HTTPMethod.HTTP_GET⟩ HTTPMethod.HTTP_POST
        "/index".toList = false :=
  ⟨by decide,
    ((C3_canHandle_exact (σ := Unit) ⟨none, none, "/index".toList, HTTPMethod.HTTP_GET⟩
      (by decide) HTTPMethod.HTTP_GET "/index".toList).1).2 ⟨Or.inr rfl, rfl⟩,
    (C3_canHandle_exact (σ := Unit) ⟨none, none, "/index".toList, HTTPMethod.HTTP_GET⟩
      (by decide) HTTPMethod.HTTP_POST "/index".toList).2 (by decide) (by decide)⟩

/-- C6: `canUpload(uri)` is true exactly when an upload callback is bound and
`canHandle(HTTP_POST, uri)` is true; a handler for a method other than `HTTP_ANY` and
`HTTP_POST` accepts no upload; `upload` runs the upload callback once when `canUpload(uri)`
holds and leaves the program state untouched otherwise. -/
theorem C6_canUpload_upload {σ : Type} (h : FunctionRequestHandler σ) (requestUri : WString)
    (world : σ) :
    (h.canUpload requestUri = true ↔
      h._ufn.isSome = true ∧ h.canHandle HTTPMethod.HTTP_POST requestUri = true)
    ∧ (h._method ≠ HTTPMethod.HTTP_ANY → h._method ≠ HTTPMethod.HTTP_POST →
        h.canUpload requestUri = false)
    ∧ (h.canUpload requestUri = true →
        ∃ ufn, h._ufn = some ufn ∧ h.upload requestUri world = ufn world)
    ∧ (h.canUpload requestUri = false → h.upload requestUri world = world) := by
  have hiff : h.canUpload requestUri = true ↔
      h._ufn.isSome = true ∧ h.canHandle HTTPMethod.HTTP_POST requestUri = true := by
    simp only [FunctionRequestHandler.canUpload]
    cases h._ufn <;> cases h.canHandle HTTPMethod.HTTP_POST requestUri <;> simp
  refine ⟨hiff, ?_, ?_, ?_⟩
  · intro h1 h2
    have hc : h.canHandle HTTPMethod.HTTP_POST requestUri = false := by
      simp only [FunctionRequestHandler.canHandle]
      rw [if_pos ⟨h1, h2⟩]
    rw [Bool.eq_false_iff]
    intro hu
    rw [hiff.1 hu |>.2] at hc
    exact Bool.noConfusion hc
  · intro hu
    obtain ⟨hs, _⟩ := hiff.1 hu
    obtain ⟨ufn, hufn⟩ := Option.isSome_iff_exists.1 hs
    refine ⟨ufn, hufn, ?_⟩
    simp only [FunctionRequestHandler.upload, hu, if_true, hufn, FunctionRequestHandler.call]
  · intro hu
    simp only [FunctionRequestHandler.upload, hu, Bool.false_eq_true, if_false]

/-- Witness for C6: a `POST "/up"` handler whose upload callback counts its calls, and a `GET`
handler with the same callback. -/
theorem C6_canUpload_upload_witness :
    FunctionRequestHandler.upload (σ := Nat)
        ⟨none, some Nat.succ, "/up".toList, HTTPMethod.HTTP_POST⟩ "/up".toList 0 = 1
    ∧ FunctionRequestHandler.upload (σ := Nat)
        ⟨none, some Nat.succ, "/up".toList, HTTPMethod.HTTP_POST⟩ "/x".toList 0 = 0
    ∧ FunctionRequestHandler.canUpload (σ := Nat)
        ⟨none, some Nat.succ, "/up".toList, HTTPMethod.HTTP_GET⟩ "/up".toList = false := by
  refine ⟨?_, ?_, ?_⟩
  · obtain ⟨ufn, hufn, hup⟩ := (C6_canUpload_upload (σ := Nat)
      ⟨none, some Nat.succ, "/up".toList, HTTPMethod.HTTP_POST⟩ "/up".toList 0).2.2.1
      (by decide)
    rw [hup]
    cases hufn
    rfl
  · exact (C6_canUpload_upload (σ := Nat)
      ⟨none, some Nat.succ, "/up".toList, HTTPMethod.HTTP_POST⟩ "/x".toList 0).2.2.2
      (by decide)
  · exact (C6_canUpload_upload (σ := Nat)
      ⟨none, some Nat.succ, "/up".toList, HTTPMethod.HTTP_GET⟩ "/up".toList 0).2.1
      (by decide) (by decide)

/-! ### RingBuffer: extraction -/

/-- C4 (amended): after `reset()` or `init()` and pushing `s` with `len(s) < capacity`,
`getStr(destination, skip)` with `skip ≤ len(s)` stores exactly the offsets below
`len(s) - skip`, as `strncpy` does: the bytes of `s` before its first NUL unchanged, NUL at
every later offset; so when none of the first `len(s) - skip` bytes of `s` is NUL the
destination receives those bytes in order. Offsets from `len(s) - skip` on are unchanged. -/
theorem C4_getStr_copies (w : Nat) (rb rb0 : RingBuffer) (hwf : rb.WF)
    (hstart : rb0 = rb.reset ∨ rb0 = rb.init w) (hw : rb._size < 2 ^ w)
    (s : List Byte) (hs : s.length < rb._size) (skip : Nat) (hskip : skip ≤ s.length)
    (destination : Mem) :
    (∀ i, i < s.length - skip →
      (rb0.pushAll s).getStr w destination skip i
        = if i < strlen s then s.getD i 0 else 0)
    ∧ ((∀ c ∈ s.take (s.length - skip), c ≠ 0) → ∀ i, i < s.length - skip →
        (rb0.pushAll s).getStr w destination skip i = s.getD i 0)
    ∧ (∀ i, s.length - skip ≤ i →
        (rb0.pushAll s).getStr w destination skip i = destination i) := by
  obtain ⟨h1, h2, h3⟩ := hwf
  have hgeo : rb0.ringBufEnd = rb0._size ∧ rb0.ringBufP = 0 ∧ rb0._size = rb._size
      ∧ rb0._size ≤ rb0.ringBuf.length := by
    rcases hstart with h | h
    · subst h
      exact ⟨h1, rfl, rfl, by simp only [RingBuffer.reset]; omega⟩
    · subst h
      refine ⟨h1, rfl, rfl, ?_⟩
      simp only [RingBuffer.init, memset, List.length_append, List.length_replicate,
        List.length_drop]
      omega
  obtain ⟨g1, g2, g3, g4⟩ := hgeo
  obtain ⟨hP, hB⟩ := RingBuffer.pushAll_no_wrap rb0 s g1 (by omega) g4
  rw [g2] at hP hB
  simp only [Nat.zero_add, List.take_zero, List.nil_append] at hP hB
  have hlen : (rb0.pushAll s).getStrLen w skip = s.length - skip := by
    rw [RingBuffer.getStrLen_eq w _ skip (by omega) (by omega), hP]
  have hgen : ∀ i, i < s.length - skip →
      (rb0.pushAll s).getStr w destination skip i
        = if i < strlen s then s.getD i 0 else 0 := by
    intro i hi
    simp only [RingBuffer.getStr, strncpy_apply, hlen, if_pos hi, hB]
    have hi2 : i < s.length := by omega
    simp only [strlen_append_lt s _ i hi2, List.getD_append s _ 0 i hi2]
  refine ⟨hgen, ?_, ?_⟩
  · intro hnz i hi
    have hi2 : i < s.length := by omega
    rw [hgen i hi, if_pos]
    apply lt_strlen_of_nonzero s i hi2
    intro j hj
    have hj2 : j < s.length := by omega
    apply hnz
    rw [List.getD_eq_getElem s 0 hj2, List.mem_take_iff_getElem]
    exact ⟨j, by omega, rfl⟩
  · intro i hi
    simp only [RingBuffer.getStr, strncpy_apply, hlen, if_neg (Nat.not_lt.2 hi)]

/-- Witness for C4: capacity 4, `"ABC"` pushed after a reset, one byte skipped. -/
theorem C4_getStr_copies_witness :
    ((RingBuffer.construct 16 4 (Function.const Nat 9)).reset.pushAll [65, 66, 67]).getStr 16
        (Function.const Nat 7) 1 1 = 66
    ∧ ((RingBuffer.construct 16 4 (Function.const Nat 9)).reset.pushAll [65, 66, 67]).getStr 16
        (Function.const Nat 7) 1 2 = 7 :=
  have h := C4_getStr_copies 16 (RingBuffer.construct 16 4 (Function.const Nat 9))
    (RingBuffer.construct 16 4 (Function.const Nat 9)).reset
    (RingBuffer.construct_WF 16 4 (Function.const Nat 9) (by decide) (by decide)) (Or.inl rfl)
    (by decide) [65, 66, 67] (by decide) 1 (by decide) (Function.const Nat 7)
  ⟨h.2.1 (by decide) 1 (by decide), h.2.2 2 (by decide)⟩

/-- C4 as stated fails: with capacity 4 and `s = [0x41, 0x00, 0x42]`, `skip = 0`,
offset 2 of the destination receives NUL, not the third byte of `s`. -/
theorem C4_counterexample :
    ([65, 0, 66] : List Byte).length < 4 ∧ 0 ≤ ([65, 0, 66] : List Byte).length
    ∧ ((RingBuffer.construct 16 4 (Function.const Nat 9)).reset.pushAll [65, 0, 66]).getStr 16
        (Function.const Nat 7) 0 2 = 0
    ∧ ([65, 0, 66] : List Byte).getD 2 0 = 66 := by
  refine ⟨by decide, by decide, by decide, by decide⟩

/-- C5 (amended): after `reset()` on a buffer with stale contents and pushing `s`,
`endsWith(P)` for a pattern of non-NUL bytes with `len(P) ≤ capacity` is true exactly when `P`
is a suffix of the ring's bytes in offset order followed by `s`; hence, once at least `len(P)`
bytes were pushed since the reset, exactly when `s` ends with `P`. -/
theorem C5_endsWith_after_reset (rb : RingBuffer) (hwf : rb.WF) (P s : List Byte)
    (hP : ∀ c ∈ P, c ≠ 0) (hlen : P.length ≤ rb._size) :
    (rb.reset.pushAll s).endsWith P
        = some (decide (P <:+ rb.ringBuf.take rb._size ++ s))
    ∧ (P.length ≤ s.length →
        (rb.reset.pushAll s).endsWith P = some (decide (P <:+ s))) := by
  have hstr : strlen P = P.length := by
    simp only [strlen, strlen_of_nonzero P hP]
  have hsz : rb.reset._size = rb._size := rfl
  have hwin : rb.reset.window = rb.ringBuf.take rb._size := by
    simp [RingBuffer.window, RingBuffer.reset]
  have hmain : (rb.reset.pushAll s).endsWith P
      = some (decide (P <:+ rb.ringBuf.take rb._size ++ s)) := by
    rw [RingBuffer.endsWith_pushAll hwf.reset s P (by rw [hsz, hstr]; exact hlen), hstr,
      List.take_length, hwin]
  refine ⟨hmain, fun hle => ?_⟩
  rw [hmain]
  congr 1
  rw [decide_eq_decide]
  constructor
  · intro h
    exact List.suffix_of_suffix_length_le h (List.suffix_append _ _) hle
  · intro h
    exact h.trans (List.suffix_append _ _)

/-- Witness for C5: capacity 2 with stale `"ab"`, then reset and `"xb"` pushed. -/
theorem C5_endsWith_after_reset_witness :
    (((RingBuffer.construct 16 2 (Function.const Nat 0)).pushAll [97, 98]).reset.pushAll [120, 98]).endsWith
      [98] = some true :=
  (C5_endsWith_after_reset ((RingBuffer.construct 16 2 (Function.const Nat 0)).pushAll [97, 98])
    ((RingBuffer.construct_WF 16 2 (Function.const Nat 0) (by decide) (by decide)).pushAll [97, 98])
    [98] [120, 98] (by decide) (by decide)).2 (by decide)

/-- C5 as stated fails: capacity 2 holding stale `"ab"`; after `reset()` and no push,
`endsWith("b")` is true although nothing was pushed since the reset. -/
theorem C5_counterexample :
    (98 : Byte) ≠ 0 ∧ ([98] : List Byte).length ≤ 2
    ∧ (((RingBuffer.construct 16 2 (Function.const Nat 0)).pushAll [97, 98]).reset.pushAll []).endsWith [98]
        = some true
    ∧ ¬ ([98] : List Byte) <:+ [] := by
  refine ⟨by decide, by decide, by decide, by decide⟩

/-- C7: `getStrN(destination, skip, num)` performs the stores of `strncpy` with the capped
length: at most `num` stores, all at offsets below `num`, so `destination[num]` and beyond are
untouched, whatever `skip` is (also when `skip` exceeds the cursor offset and the subtraction
wraps modulo `2 ^ w`); when `skip ≤ cursor offset` the stores are at offsets
`0 .. min(cursor offset - skip, num) - 1`, one each. -/
theorem C7_getStrN_bound (w : Nat) (rb : RingBuffer) (destination : Mem) (skip num : Nat) :
    rb.getStrN w destination skip num
        = destination.storeAll (strncpyStores rb.ringBuf (rb.getStrNLen w skip num))
    ∧ (strncpyStores rb.ringBuf (rb.getStrNLen w skip num)).length ≤ num
    ∧ (∀ st ∈ strncpyStores rb.ringBuf (rb.getStrNLen w skip num), st.1 < num)
    ∧ (∀ i, num ≤ i → rb.getStrN w destination skip num i = destination i)
    ∧ (skip ≤ rb.ringBufP → rb.ringBufP < 2 ^ w →
        (strncpyStores rb.ringBuf (rb.getStrNLen w skip num)).map Prod.fst
          = List.range (min (rb.ringBufP - skip) num)) := by
  have hle : rb.getStrNLen w skip num ≤ num := by
    simp only [RingBuffer.getStrNLen]
    split_ifs with h
    · exact Nat.le_refl _
    · omega
  have hlen : (strncpyStores rb.ringBuf (rb.getStrNLen w skip num)).length
      = rb.getStrNLen w skip num := by
    rw [← List.length_map (strncpyStores rb.ringBuf (rb.getStrNLen w skip num)) Prod.fst,
      strncpyStores_offsets, List.length_range]
  refine ⟨rfl, by rw [hlen]; exact hle, ?_, ?_, ?_⟩
  · intro st hst
    have hmem : st.1 ∈ (strncpyStores rb.ringBuf (rb.getStrNLen w skip num)).map Prod.fst :=
      List.mem_map_of_mem _ hst
    rw [strncpyStores_offsets, List.mem_range] at hmem
    omega
  · intro i hi
    simp only [RingBuffer.getStrN, strncpy_apply]
    rw [if_neg (by omega)]
  · intro hskip hw
    rw [strncpyStores_offsets]
    congr 1
    have h1 := RingBuffer.getStrLen_eq w rb skip hskip hw
    simp only [RingBuffer.getStrLen] at h1
    simp only [RingBuffer.getStrNLen, h1]
    split_ifs with h
    · omega
    · omega

/-- Witness for C7: cursor at offset 3 of `"ABC"`, `skip = 1`, `num = 1`; and `skip = 5`, where
the subtraction wraps. -/
theorem C7_getStrN_bound_witness :
    (strncpyStores [65, 66, 67, 0, 0] (RingBuffer.getStrNLen 16 ⟨4, [65, 66, 67, 0, 0], 4, 3⟩ 1 1)).map
        Prod.fst = List.range (min (3 - 1) 1)
    ∧ (strncpyStores [65, 66, 67, 0, 0]
        (RingBuffer.getStrNLen 16 ⟨4, [65, 66, 67, 0, 0], 4, 3⟩ 5 2)).length ≤ 2 :=
  ⟨(C7_getStrN_bound 16 ⟨4, [65, 66, 67, 0, 0], 4, 3⟩ (Function.const Nat 7) 1 1).2.2.2.2 (by decide)
      (by decide),
    (C7_getStrN_bound 16 ⟨4, [65, 66, 67, 0, 0], 4, 3⟩ (Function.const Nat 7) 5 2).2.1⟩

/-- C8: for a buffer whose cursor is at the start, pushing `s`, extracting with
`getStr(d, skip)`, then `reset()`, pushing the same `s` and extracting again into a destination
with the same initial contents gives the same destination, and the buffer (block and cursor)
after the replay equals the buffer before the reset. -/
theorem C8_replay (w : Nat) (rb : RingBuffer) (hstart : rb.ringBufP = 0) (s : List Byte)
    (skip : Nat) (d : Mem) :
    ((rb.pushAll s).reset.pushAll s).getStr w d skip = (rb.pushAll s).getStr w d skip
    ∧ ((rb.pushAll s).reset.pushAll s).ringBuf = (rb.pushAll s).ringBuf
    ∧ ((rb.pushAll s).reset.pushAll s).ringBufP = (rb.pushAll s).ringBufP := by
  rw [RingBuffer.pushAll_replay rb s hstart]
  exact ⟨rfl, rfl, rfl⟩

/-- Witness for C8: capacity 3, `"ABCDE"` pushed from a fresh buffer (one wrap), `skip = 1`. -/
theorem C8_replay_witness :
    (RingBuffer.construct 16 3 (Function.const Nat 0)).ringBufP = 0
    ∧ (((RingBuffer.construct 16 3 (Function.const Nat 0)).pushAll [65, 66, 67, 68, 69]).reset.pushAll
        [65, 66, 67, 68, 69]).ringBuf
      = ((RingBuffer.construct 16 3 (Function.const Nat 0)).pushAll [65, 66, 67, 68, 69]).ringBuf :=
  ⟨rfl, (C8_replay 16 (RingBuffer.construct 16 3 (Function.const Nat 0)) rfl [65, 66, 67, 68, 69] 1
    (Function.const Nat 0)).2.1⟩

/-! ### Socket client -/

/-- One operation on a client holding `h ≠ 255`: every driver call carries `h`, and either the
handle is kept and `h` is not released, or the handle becomes 255 and `h` is released once. -/
theorem step_open (MAX_SOCK_NUM h : Nat) (hh : h ≠ 255) (c : ESP8266_AT_Client)
    (hc : c._sock = h) (call : ClientCall) (d : DrvResp) :
    (∀ e ∈ (step MAX_SOCK_NUM c call d).2, e.sock = h)
    ∧ (((step MAX_SOCK_NUM c call d).1._sock = h
          ∧ (step MAX_SOCK_NUM c call d).2.count (DrvCall.releaseSocket h) = 0)
        ∨ ((step MAX_SOCK_NUM c call d).1._sock = 255
          ∧ (step MAX_SOCK_NUM c call d).2.count (DrvCall.releaseSocket h) = 1)) := by
  have h255 : ¬ c._sock = 255 := by rw [hc]; exact hh
  cases call with
  | available =>
    simp only [step, ESP8266_AT_Client.available, ne_eq, h255, not_false_eq_true, if_true]
    split_ifs <;> simp [DrvCall.sock, hc]
  | read =>
    simp only [step, ESP8266_AT_Client.read, ESP8266_AT_Client.available, ne_eq, h255,
      not_false_eq_true, if_true]
    split_ifs <;> simp [DrvCall.sock, hc]
  | readBuf size =>
    simp only [step, ESP8266_AT_Client.readBuf, ESP8266_AT_Client.available, ne_eq, h255,
      not_false_eq_true, if_true]
    split_ifs <;> simp [DrvCall.sock, hc]
  | peek =>
    simp only [step, ESP8266_AT_Client.peek, ESP8266_AT_Client.available, ne_eq, h255,
      not_false_eq_true, if_true]
    split_ifs <;> simp [DrvCall.sock, hc]
  | status =>
    simp only [step, ESP8266_AT_Client.status, h255, if_false]
    split_ifs <;> simp [DrvCall.sock, hc]
  | connected =>
    simp only [step, ESP8266_AT_Client.connected, ESP8266_AT_Client.status, h255, if_false]
    split_ifs <;> simp [DrvCall.sock, hc]
  | write buf size =>
    simp only [step, ESP8266_AT_Client.write, ESP8266_AT_Client.stop,
      ESP8266_AT_Client.setWriteError, h255, if_false]
    split_ifs <;> simp [DrvCall.sock, hc]
  | stop =>
    simp only [step, ESP8266_AT_Client.stop, h255, if_false]
    simp [DrvCall.sock, hc]

/-- One operation on a client without a socket: the handle stays 255 and the only driver call
that can be made is `sendData` (none at all when `MAX_SOCK_NUM ≤ 255`). -/
theorem step_closed (MAX_SOCK_NUM : Nat) (c : ESP8266_AT_Client) (hc : c._sock = 255)
    (call : ClientCall) (d : DrvResp) :
    (step MAX_SOCK_NUM c call d).1._sock = 255
    ∧ (∀ e ∈ (step MAX_SOCK_NUM c call d).2, e.isSendData = true)
    ∧ (MAX_SOCK_NUM ≤ 255 → (step MAX_SOCK_NUM c call d).2 = []) := by
  cases call with
  | available => simp [step, ESP8266_AT_Client.available, hc]
  | read => simp [step, ESP8266_AT_Client.read, ESP8266_AT_Client.available, hc]
  | readBuf size => simp [step, ESP8266_AT_Client.readBuf, ESP8266_AT_Client.available, hc]
  | peek => simp [step, ESP8266_AT_Client.peek, ESP8266_AT_Client.available, hc]
  | status => simp [step, ESP8266_AT_Client.status, hc]
  | connected => simp [step, ESP8266_AT_Client.connected, ESP8266_AT_Client.status, hc]
  | write buf size =>
    simp only [step, ESP8266_AT_Client.write, ESP8266_AT_Client.stop,
      ESP8266_AT_Client.setWriteError, hc]
    split_ifs with h1 h2 <;> simp [DrvCall.isSendData, hc]
    all_goals omega
  | stop => simp [step, ESP8266_AT_Client.stop, hc]

theorem run_closed (MAX_SOCK_NUM : Nat) (c : ESP8266_AT_Client) (hc : c._sock = 255)
    (ops : List (ClientCall × DrvResp)) :
    (run MAX_SOCK_NUM c ops).1._sock = 255
    ∧ (∀ e ∈ (run MAX_SOCK_NUM c ops).2, e.isSendData = true)
    ∧ (MAX_SOCK_NUM ≤ 255 → (run MAX_SOCK_NUM c ops).2 = []) := by
  induction ops generalizing c with
  | nil => simp [run, hc]
  | cons op ops ih =>
    obtain ⟨call, d⟩ := op
    obtain ⟨s1, s2, s3⟩ := step_closed MAX_SOCK_NUM c hc call d
    obtain ⟨i1, i2, i3⟩ := ih (step MAX_SOCK_NUM c call d).1 s1
    refine ⟨i1, ?_, ?_⟩
    · intro e he
      simp only [run, List.mem_append] at he
      rcases he with he | he
      · exact s2 e he
      · exact i2 e he
    · intro hmax
      simp only [run, s3 hmax, i3 hmax, List.append_nil]

theorem count_release_of_sendData (h : Nat) (l : List DrvCall)
    (hl : ∀ e ∈ l, e.isSendData = true) : l.count (DrvCall.releaseSocket h) = 0 := by
  rw [List.count_eq_zero]
  intro hmem
  have := hl _ hmem
  simp [DrvCall.isSendData] at this

/-- The invariant of a run from a client holding `h ≠ 255`. -/
theorem run_open (MAX_SOCK_NUM h : Nat) (hh : h ≠ 255) (c : ESP8266_AT_Client)
    (hc : c._sock = h) (ops : List (ClientCall × DrvResp)) :
    (∀ e ∈ (run MAX_SOCK_NUM c ops).2, e.isSendData = false → e.sock = h)
    ∧ (MAX_SOCK_NUM ≤ 255 → ∀ e ∈ (run MAX_SOCK_NUM c ops).2, e.sock = h)
    ∧ (((run MAX_SOCK_NUM c ops).1._sock = h
          ∧ (run MAX_SOCK_NUM c ops).2.count (DrvCall.releaseSocket h) = 0)
        ∨ ((run MAX_SOCK_NUM c ops).1._sock = 255
          ∧ (run MAX_SOCK_NUM c ops).2.count (DrvCall.releaseSocket h) = 1)) := by
  induction ops generalizing c with
  | nil => simp [run, hc]
  | cons op ops ih =>
    obtain ⟨call, d⟩ := op
    obtain ⟨s1, s2⟩ := step_open MAX_SOCK_NUM h hh c hc call d
    rcases s2 with ⟨k1, k2⟩ | ⟨k1, k2⟩
    · obtain ⟨i1, i2, i3⟩ := ih (step MAX_SOCK_NUM c call d).1 k1
      refine ⟨?_, ?_, ?_⟩
      · intro e he hns
        simp only [run, List.mem_append] at he
        rcases he with he | he
        · exact s1 e he
        · exact i1 e he hns
      · intro hmax e he
        simp only [run, List.mem_append] at he
        rcases he with he | he
        · exact s1 e he
        · exact i2 hmax e he
      · simp only [run, List.count_append, k2, Nat.zero_add]
        exact i3
    · obtain ⟨c1, c2, c3⟩ := run_closed MAX_SOCK_NUM (step MAX_SOCK_NUM c call d).1 k1 ops
      refine ⟨?_, ?_, ?_⟩
      · intro e he hns
        simp only [run, List.mem_append] at he
        rcases he with he | he
        · exact s1 e he
        · rw [c2 e he] at hns
          exact Bool.noConfusion hns
      · intro hmax e he
        simp only [run, c3 hmax, List.append_nil] at he
        exact s1 e he
      · right
        refine ⟨c1, ?_⟩
        simp only [run, List.count_append, k2, count_release_of_sendData h _ c2]

theorem run_append (MAX_SOCK_NUM : Nat) (c : ESP8266_AT_Client)
    (a b : List (ClientCall × DrvResp)) :
    run MAX_SOCK_NUM c (a ++ b)
      = ((run MAX_SOCK_NUM (run MAX_SOCK_NUM c a).1 b).1,
          (run MAX_SOCK_NUM c a).2 ++ (run MAX_SOCK_NUM (run MAX_SOCK_NUM c a).1 b).2) := by
  induction a generalizing c with
  | nil => simp [run]
  | cons op a ih =>
    obtain ⟨call, d⟩ := op
    show run MAX_SOCK_NUM c ((call, d) :: (a ++ b)) = _
    simp only [run, ih, List.append_assoc]

/-- C10: for a client holding `h ≠ 255` and any finite sequence of `available`, `read`, `peek`,
`status`, `connected`, `write` and `stop` calls with arbitrary driver answers:
`releaseSocket(h)` is called at most once; an operation that calls `releaseSocket` leaves the
handle at 255, and once `h` is released the handle is 255; every driver call other than
`sendData` carries `h`, never 255; a sequence ending with `stop()` has released `h` exactly
once, and a further `stop()` then makes no driver call and changes nothing. -/
theorem C10_release_once (MAX_SOCK_NUM h : Nat) (hh : h ≠ 255) (c : ESP8266_AT_Client)
    (hc : c._sock = h) (ops : List (ClientCall × DrvResp)) :
    (run MAX_SOCK_NUM c ops).2.count (DrvCall.releaseSocket h) ≤ 1
    ∧ ((run MAX_SOCK_NUM c ops).2.count (DrvCall.releaseSocket h) = 1 →
        (run MAX_SOCK_NUM c ops).1._sock = 255)
    ∧ (∀ (c1 : ESP8266_AT_Client) (call : ClientCall) (d : DrvResp) (x : Nat),
        DrvCall.releaseSocket x ∈ (step MAX_SOCK_NUM c1 call d).2 →
          (step MAX_SOCK_NUM c1 call d).1._sock = 255)
    ∧ (∀ e ∈ (run MAX_SOCK_NUM c ops).2, e.isSendData = false → e.sock = h ∧ e.sock ≠ 255)
    ∧ (∀ pre d, ops = pre ++ [(ClientCall.stop, d)] →
        (run MAX_SOCK_NUM c ops).2.count (DrvCall.releaseSocket h) = 1
        ∧ ∀ d2, step MAX_SOCK_NUM (run MAX_SOCK_NUM c ops).1 ClientCall.stop d2
            = ((run MAX_SOCK_NUM c ops).1, [])) := by
  obtain ⟨r1, _, r3⟩ := run_open MAX_SOCK_NUM h hh c hc ops
  refine ⟨?_, ?_, ?_, ?_, ?_⟩
  · rcases r3 with ⟨_, k⟩ | ⟨_, k⟩ <;> omega
  · intro hcount
    rcases r3 with ⟨_, k⟩ | ⟨k, _⟩
    · omega
    · exact k
  · intro c1 call d x hx
    by_cases hc1 : c1._sock = 255
    · exact (step_closed MAX_SOCK_NUM c1 hc1 call d).1
    · obtain ⟨s1, s2⟩ := step_open MAX_SOCK_NUM c1._sock hc1 c1 rfl call d
      rcases s2 with ⟨_, k⟩ | ⟨k, _⟩
      · have hx2 := s1 _ hx
        simp only [DrvCall.sock] at hx2
        rw [hx2] at hx
        exact absurd hx (List.count_eq_zero.1 k)
      · exact k
  · intro e he hns
    have := r1 e he hns
    exact ⟨this, by rw [this]; exact hh⟩
  · intro pre d hops
    have hfin : (run MAX_SOCK_NUM c ops).1._sock = 255 := by
      rw [hops, run_append]
      simp only [run, step, ESP8266_AT_Client.stop]
      split_ifs with h1
      · exact h1
      · rfl
    constructor
    · rcases r3 with ⟨k, _⟩ | ⟨_, k⟩
      · rw [k] at hfin
        exact absurd hfin hh
      · exact k
    · intro d2
      simp only [step, ESP8266_AT_Client.stop, hfin, if_true]

/-- Witness for C10: handle 1; `available`, then a `read` during which the peer closes, then
`stop`. -/
theorem C10_release_once_witness :
    (run 4 ⟨1, 0⟩
        [(ClientCall.available, ⟨true, 5, 0, false, 0, true⟩),
          (ClientCall.read, ⟨true, 5, 65, true, 0, true⟩),
          (ClientCall.stop, ⟨true, 0, 0, false, 0, false⟩)]).2.count (DrvCall.releaseSocket 1)
      = 1 :=
  ((C10_release_once 4 1 (by decide) ⟨1, 0⟩ rfl
      [(ClientCall.available, ⟨true, 5, 0, false, 0, true⟩),
        (ClientCall.read, ⟨true, 5, 65, true, 0, true⟩),
        (ClientCall.stop, ⟨true, 0, 0, false, 0, false⟩)]).2.2.2.2
    [(ClientCall.available, ⟨true, 5, 0, false, 0, true⟩),
      (ClientCall.read, ⟨true, 5, 65, true, 0, true⟩)] ⟨true, 0, 0, false, 0, false⟩ rfl).1


/-- C9: with `255` outside the valid handles (`MAX_SOCK_NUM ≤ 255`), `write(buf, size)` on a
client holding `h < MAX_SOCK_NUM` with `size ≠ 0` calls `sendData` once; when the driver rejects
it returns 0 with the write-error flag set, the connection stopped, `h` released and the
client's handle 255; when the driver accepts it returns `size` and keeps the handle. With a
handle `≥ MAX_SOCK_NUM` or `size = 0` it returns 0 with the write-error flag set and makes no
driver call. -/
theorem C9_write (MAX_SOCK_NUM : Nat) (hmax : MAX_SOCK_NUM ≤ 255) (c : ESP8266_AT_Client)
    (buf : List Byte) (size : Nat) (d : DrvResp) :
    (c._sock < MAX_SOCK_NUM → size ≠ 0 →
      (d.sendData = false →
        (c.write MAX_SOCK_NUM buf size d).ret = 0
        ∧ (c.write MAX_SOCK_NUM buf size d).client.write_error = 1
        ∧ (c.write MAX_SOCK_NUM buf size d).client._sock = 255
        ∧ (c.write MAX_SOCK_NUM buf size d).calls
            = [DrvCall.sendData c._sock buf size, DrvCall.stopClient c._sock,
                DrvCall.releaseSocket c._sock])
      ∧ (d.sendData = true →
        (c.write MAX_SOCK_NUM buf size d).ret = size
        ∧ (c.write MAX_SOCK_NUM buf size d).client._sock = c._sock
        ∧ (c.write MAX_SOCK_NUM buf size d).calls = [DrvCall.sendData c._sock buf size]))
    ∧ (MAX_SOCK_NUM ≤ c._sock ∨ size = 0 →
        (c.write MAX_SOCK_NUM buf size d).ret = 0
        ∧ (c.write MAX_SOCK_NUM buf size d).client.write_error = 1
        ∧ (c.write MAX_SOCK_NUM buf size d).calls = []) := by
  constructor
  · intro hsock hsize
    have hg : ¬ (c._sock ≥ MAX_SOCK_NUM ∨ size = 0) := by
      rintro (h | h)
      · omega
      · exact hsize h
    have h255 : ¬ c._sock = 255 := by omega
    constructor
    · intro hr
      simp [ESP8266_AT_Client.write, hg, hr, ESP8266_AT_Client.stop,
        ESP8266_AT_Client.setWriteError, h255]
    · intro hr
      simp [ESP8266_AT_Client.write, hg, hr]
  · intro hg
    have hg2 : c._sock ≥ MAX_SOCK_NUM ∨ size = 0 := hg
    simp [ESP8266_AT_Client.write, hg2, ESP8266_AT_Client.setWriteError]

/-- Witness for C9: four sockets, handle 2, three bytes, the driver rejecting the write. -/
theorem C9_write_witness :
    (ESP8266_AT_Client.write 4 ⟨2, 0⟩ [1, 2, 3] 3 ⟨false, 0, 0, false, 0, false⟩).calls
        = [DrvCall.sendData 2 [1, 2, 3] 3, DrvCall.stopClient 2, DrvCall.releaseSocket 2]
    ∧ (ESP8266_AT_Client.write 4 ⟨2, 0⟩ [1, 2, 3] 0 ⟨false, 0, 0, false, 0, false⟩).calls = [] :=
  ⟨(((C9_write 4 (by decide) ⟨2, 0⟩ [1, 2, 3] 3 ⟨false, 0, 0, false, 0, false⟩).1
      (by decide) (by decide)).1 rfl).2.2.2,
    ((C9_write 4 (by decide) ⟨2, 0⟩ [1, 2, 3] 0 ⟨false, 0, 0, false, 0, false⟩).2
      (Or.inr rfl)).2.2⟩

/-! ### Request handlers: dispatch -/

/-- C11: for a `FunctionRequestHandler` with its handler callback bound, `handle(server, method,
uri)` returns, and returns true exactly when `canHandle(method, uri)` is true; when it returns
true the program state is the one left by one run of the callback, and when it returns false
the state is untouched (the callback was not run), whether or not a callback is bound. -/
theorem C11_handle_iff_canHandle {σ : Type} (h : FunctionRequestHandler σ)
    (requestMethod : HTTPMethod) (requestUri : WString) (world : σ) :
    (∀ fn, h._fn = some fn →
      h.handle requestMethod requestUri world
        = some (h.canHandle requestMethod requestUri,
            if h.canHandle requestMethod requestUri = true then fn world else world))
    ∧ (∀ fn, h._fn = some fn → h.canHandle requestMethod requestUri = true →
        h.handle requestMethod requestUri world = some (true, fn world))
    ∧ (h.canHandle requestMethod requestUri = false →
        h.handle requestMethod requestUri world = some (false, world))
    ∧ (∀ w1, h.handle requestMethod requestUri world = some (true, w1) →
        h.canHandle requestMethod requestUri = true ∧ ∃ fn, h._fn = some fn ∧ w1 = fn world)
    ∧ (∀ w1, h.handle requestMethod requestUri world = some (false, w1) →
        h.canHandle requestMethod requestUri = false ∧ w1 = world) := by
  have hfalse : h.canHandle requestMethod requestUri = false →
      h.handle requestMethod requestUri world = some (false, world) := by
    intro hc
    simp only [FunctionRequestHandler.handle, hc, Bool.not_false, if_true]
  have htrue : ∀ fn, h._fn = some fn → h.canHandle requestMethod requestUri = true →
      h.handle requestMethod requestUri world = some (true, fn world) := by
    intro fn hfn hc
    simp only [FunctionRequestHandler.handle, hc, Bool.not_true, Bool.false_eq_true, if_false,
      hfn, FunctionRequestHandler.invoke]
  refine ⟨?_, htrue, hfalse, ?_, ?_⟩
  · intro fn hfn
    cases hc : h.canHandle requestMethod requestUri with
    | false => simpa using hfalse hc
    | true => simpa using htrue fn hfn hc
  · intro w1 hw
    cases hc : h.canHandle requestMethod requestUri with
    | false =>
      rw [hfalse hc] at hw
      simp at hw
    | true =>
      refine ⟨rfl, ?_⟩
      cases hfn : h._fn with
      | none =>
        simp [FunctionRequestHandler.handle, hc, hfn, FunctionRequestHandler.invoke] at hw
      | some fn =>
        rw [htrue fn hfn hc] at hw
        refine ⟨fn, rfl, ?_⟩
        simpa using hw.symm
  · intro w1 hw
    cases hc : h.canHandle requestMethod requestUri with
    | false =>
      rw [hfalse hc] at hw
      refine ⟨rfl, ?_⟩
      simpa using hw.symm
    | true =>
      cases hfn : h._fn with
      | none =>
        simp [FunctionRequestHandler.handle, hc, hfn, FunctionRequestHandler.invoke] at hw
      | some fn =>
        rw [htrue fn hfn hc] at hw
        simp at hw

/-- Witness for C11: a `GET "/index"` handler whose callback counts its runs, asked for
`GET "/index"` (one run) and for `POST "/index"` (no run). -/
theorem C11_handle_iff_canHandle_witness :
    FunctionRequestHandler.handle (σ := Nat)
        ⟨some Nat.succ, none, "/index".toList, HTTPMethod.HTTP_GET⟩ HTTPMethod.HTTP_GET
        "/index".toList 0 = some (true, 1)
    ∧ FunctionRequestHandler.handle (σ := Nat)
        ⟨some Nat.succ, none, "/index".toList, HTTPMethod.HTTP_GET⟩ HTTPMethod.HTTP_POST
        "/index".toList 0 = some (false, 0) :=
  ⟨(C11_handle_iff_canHandle (σ := Nat)
      ⟨some Nat.succ, none, "/index".toList, HTTPMethod.HTTP_GET⟩ HTTPMethod.HTTP_GET
      "/index".toList 0).2.1 Nat.succ rfl (by decide),
    (C11_handle_iff_canHandle (σ := Nat)
      ⟨some Nat.succ, none, "/index".toList, HTTPMethod.HTTP_GET⟩ HTTPMethod.HTTP_POST
      "/index".toList 0).2.2.1 (by decide)⟩

end ESP8266AT
